import Mathlib

/-!
Verification development for the chart2melodics drum-chart converter
(`chart2melodics.py`).

The script reads a drum-chart MIDI file into a tick-indexed table of events,
applies a fixed sequence of rewrite rules (composite-note collapse, note
remaps, velocity remaps, hand assignment, flam expansion, track merges), and
re-synthesizes a MIDI file with generated note-off messages.

Shallow embedding notes:
* A mido message is modelled by `Msg`: a type tag (`note_on`, `note_off`, or
  an opaque non-note tag), note number, velocity, channel, and the delta-time
  field `time`.  Non-note messages carry unused zero note/velocity fields that
  no code path reads.
* The Python `events_by_tick` is a `defaultdict(list)` keyed by absolute tick.
  We model it as an association list `EventTable = List (Nat × List Event)`
  whose entries we keep ordered by tick (`tableInsert` inserts new keys in
  tick order rather than at the end).  This is observationally equivalent to
  the Python dict: every pass treats the entries independently of their
  order, and the two order-sensitive consumers (`assign_hands_for_note` and
  `write_midi`) both begin by sorting the keys, exactly as the Python code
  iterates `sorted(events_by_tick.keys())`.
* Python integers are `Nat` here: ticks, note numbers, velocities, channels
  and track indices are all non-negative in every reachable state, and the
  one subtraction the code performs (`next_tick - tick == 24` on a
  tick-sorted hit list, and delta = `tick - last_tick` on a tick-sorted
  track) never goes below zero.  The `in_track` filter argument of
  `write_midi` is an `Int` because the script passes `-1` for "all tracks".
* The two fatal failures (the `ValueError` for a resolution mismatch and the
  `IndexError` raised by `new_mid.tracks[0].name` / `tracks[1].name` when
  fewer than two tracks were emitted) are modelled with `Except PipelineError`.
-/

/-- `EXPECTED_TPB = 96`, the mandatory ticks-per-beat resolution. -/
def EXPECTED_TPB : Nat := 96

/-- `DEFAULT_DURATION = 8`, the fixed duration of synthesized note-offs. -/
def DEFAULT_DURATION : Nat := 8

/-- The message-type tag of a mido message.  The rules only ever test for
`note_on` and `note_off`; all other message types (meta, program change, ...)
are opaque pass-through values distinguished by a tag. -/
inductive MsgType where
  | note_on : MsgType
  | note_off : MsgType
  | other : Nat → MsgType
deriving DecidableEq

/-- A mido message: type tag, note number, velocity, channel, and the
relative-time field.  For non-note messages the note/velocity/channel fields
are unread junk. -/
structure Msg where
  type : MsgType
  note : Nat
  velocity : Nat
  channel : Nat
  time : Nat
deriving DecidableEq

/-- One entry of the event table: absolute tick, originating/destination
track index, and the retained message (`{"tick": ..., "track": ..., "msg": ...}`
in the Python source). -/
structure Event where
  tick : Nat
  track : Nat
  msg : Msg
deriving DecidableEq

/-- The tick-indexed event table (`events_by_tick`): an association list from
absolute tick (unique key) to the ordered events at that tick. -/
abbrev EventTable := List (Nat × List Event)

/-- All events of a table, in entry order. -/
def tableEvents (t : EventTable) : List Event :=
  t.flatMap (fun p => p.2)

/-- Append event `e` at key `tick`, creating the key if absent.  New keys are
placed in tick order (see the module comment for why this matches the
insertion-ordered Python dict). -/
def tableInsert (tick : Nat) (e : Event) : EventTable → EventTable
  | [] => [(tick, [e])]
  | (k, evs) :: rest =>
    if tick = k then (k, evs ++ [e]) :: rest
    else if tick < k then (tick, [e]) :: (k, evs) :: rest
    else (k, evs) :: tableInsert tick e rest

/-- The parsed input MIDI container handed over by the mido codec:
declared resolution and the per-track message lists (delta times in
`Msg.time`). -/
structure MidiFileIn where
  ticks_per_beat : Nat
  tracks : List (List Msg)

/-- The two fatal failures of the script: the resolution-mismatch
`ValueError` of `read_midi_events` and the `IndexError` raised by
`write_midi` when naming `tracks[0]` / `tracks[1]`. -/
inductive PipelineError where
  | resolutionMismatch : Nat → PipelineError
  | indexError : PipelineError
deriving DecidableEq

/-- Ingest one input track: accumulate absolute time from the per-message
deltas, skip every `note_off`, and append each retained message as an event
tagged with the track index. -/
def ingestTrack (track_index : Nat) (abs_time : Nat) (t : EventTable) :
    List Msg → EventTable
  | [] => t
  | m :: rest =>
    let abs' := abs_time + m.time
    if m.type = MsgType.note_off then
      ingestTrack track_index abs' t rest
    else
      ingestTrack track_index abs'
        (tableInsert abs' { tick := abs', track := track_index, msg := m } t) rest

/-- Ingest every track of the container, in track order. -/
def ingestTracks (tracks : List (List Msg)) : EventTable :=
  tracks.enum.foldl (fun t p => ingestTrack p.1 0 t p.2) []

/-- `read_midi_events`: fail with the resolution mismatch if the declared
ticks-per-beat differs from `EXPECTED_TPB`, otherwise build the event table.
No other validation is performed. -/
def read_midi_events (mid : MidiFileIn) : Except PipelineError EventTable :=
  if mid.ticks_per_beat ≠ EXPECTED_TPB then
    Except.error (PipelineError.resolutionMismatch mid.ticks_per_beat)
  else
    Except.ok (ingestTracks mid.tracks)

/-- One step of Python `min(..., key=...)`: keep the current minimum unless
the next element's note number is strictly smaller (so the FIRST event with
the smallest note wins ties, as Python's `min` does). -/
def pyMinStep (acc : Option Event) (e : Event) : Option Event :=
  match acc with
  | none => some e
  | some m => if e.msg.note < m.msg.note then some e else some m

/-- Python `min(..., key=lambda e: e["msg"].note)` over a nonempty list:
left fold keeping the first event with the smallest note number. -/
def pyMinByNote (l : List Event) : Option Event :=
  l.foldl pyMinStep none

/-- The per-tick body of `replace_composite_notes`.  Faithful to the source:
the rule fires when the COUNT of note-on events whose note lies in
`match_notes` equals the size of `match_notes` (the Python code compares
`len(found_indices)` with `len(match_notes)`), and then rebuilds the tick as
remaining note-ons, the single replacement, and the non-note-on events.
The `none` branch of `pyMinByNote` is unreachable for a nonempty match set
(in Python an empty match set would make `min` raise on an empty sequence). -/
def compositeTick (match_notes : List Nat) (replace_with : Nat)
    (events : List Event) : List Event :=
  let note_ons := events.filter (fun e => e.msg.type = MsgType.note_on)
  let other_events := events.filter (fun e => ¬ e.msg.type = MsgType.note_on)
  let found := note_ons.filter (fun e => e.msg.note ∈ match_notes)
  if found.length = match_notes.length then
    match pyMinByNote found with
    | some base_event =>
      let new_event : Event :=
        { base_event with msg := { base_event.msg with note := replace_with } }
      let remaining_note_ons :=
        note_ons.filter (fun e => ¬ e.msg.note ∈ match_notes)
      remaining_note_ons ++ [new_event] ++ other_events
    | none => events
  else
    events

/-- `replace_composite_notes`: apply the composite collapse at every tick.
`match_notes` is the Python set, passed as a duplicate-free list. -/
def replace_composite_notes (t : EventTable) (match_notes : List Nat)
    (replace_with : Nat) : EventTable :=
  t.map (fun p => (p.1, compositeTick match_notes replace_with p.2))

/-- The per-event body of `replace_single_note`. -/
def singleNoteEv (from_note to_note : Nat) (e : Event) : Event :=
  if e.msg.type = MsgType.note_on ∧ e.msg.note = from_note then
    { e with msg := { e.msg with note := to_note } }
  else e

/-- `replace_single_note`: unconditionally remap every note-on with
`note = from_note` to `note = to_note`. -/
def replace_single_note (t : EventTable) (from_note to_note : Nat) :
    EventTable :=
  t.map (fun p => (p.1, p.2.map (singleNoteEv from_note to_note)))

/-- `replace_track`: move every event on `from_track` to `to_track`. -/
def replace_track (t : EventTable) (from_track to_track : Nat) : EventTable :=
  t.map (fun p =>
    (p.1, p.2.map (fun e =>
      if e.track = from_track then { e with track := to_track } else e)))

/-- `replace_note_track`: move every note-on whose note is in `notes` to
`to_track`. -/
def replace_note_track (t : EventTable) (notes : List Nat) (to_track : Nat) :
    EventTable :=
  t.map (fun p =>
    (p.1, p.2.map (fun e =>
      if e.msg.type = MsgType.note_on ∧ e.msg.note ∈ notes then
        { e with track := to_track }
      else e)))

/-- `replace_note_if_velocity`: remap `from_note` to `to_note` when the
velocity is exactly `from_vel`, forcing velocity 100. -/
def replace_note_if_velocity (t : EventTable) (from_note from_vel to_note : Nat) :
    EventTable :=
  t.map (fun p =>
    (p.1, p.2.map (fun e =>
      if e.msg.type = MsgType.note_on ∧ e.msg.note = from_note ∧
          e.msg.velocity = from_vel then
        { e with msg := { e.msg with note := to_note, velocity := 100 } }
      else e)))

/-- `replace_velocity_if_velocity`: set velocity `to_vel` on every note-on
whose velocity is exactly `from_vel`. -/
def replace_velocity_if_velocity (t : EventTable) (from_vel to_vel : Nat) :
    EventTable :=
  t.map (fun p =>
    (p.1, p.2.map (fun e =>
      if e.msg.type = MsgType.note_on ∧ e.msg.velocity = from_vel then
        { e with msg := { e.msg with velocity := to_vel } }
      else e)))

/-- Matching test of `detect_flam`: note-on with the given note and
velocity. -/
def flamMatch (from_note from_vel : Nat) (e : Event) : Bool :=
  decide (e.msg.type = MsgType.note_on ∧ e.msg.note = from_note ∧
    e.msg.velocity = from_vel)

/-- The per-tick body of `detect_flam` (`tk` is the tick key): every matching
event is rewritten in place to the right-hand copy (note `to_note`, velocity
100, track `right_track`), and for each match a left-hand duplicate is
appended at the end of the tick, in match order. -/
def flamTick (from_note from_vel to_note left_track right_track tk : Nat)
    (events : List Event) : List Event :=
  (events.map (fun e =>
    if flamMatch from_note from_vel e then
      { e with
        msg := { e.msg with note := to_note, velocity := 100 },
        track := right_track }
    else e)) ++
  ((events.filter (flamMatch from_note from_vel)).map (fun e =>
    { tick := tk, track := left_track,
      msg := { e.msg with note := to_note, velocity := 100 } }))

/-- `detect_flam`: expand every matching note-on into a right-hand
replacement plus an appended left-hand duplicate at the same tick. -/
def detect_flam (t : EventTable) (from_note from_vel to_note : Nat)
    (left_track right_track : Nat) : EventTable :=
  t.map (fun p =>
    (p.1, flamTick from_note from_vel to_note left_track right_track p.1 p.2))

/-- Insert `x` into a list already ordered by `key`, after all elements whose
key is less than or equal: this is the stable ascending insertion used to
model Python's stable sorts over unique-key collections. -/
def insOrd {α : Type} (key : α → Nat) (x : α) : List α → List α
  | [] => [x]
  | y :: ys => if key x < key y then x :: y :: ys else y :: insOrd key x ys

/-- Stable ascending sort by `key` (models `sorted(...)` / `list.sort`). -/
def sortByKey {α : Type} (key : α → Nat) (l : List α) : List α :=
  l.foldl (fun acc x => insOrd key x acc) []

/-- Hit test of `assign_hands_for_note`: a note-on whose note number is in
the target set. -/
def isHit (notes : List Nat) (e : Event) : Bool :=
  decide (e.msg.type = MsgType.note_on ∧ e.msg.note ∈ notes)

/-- `ticks_per_beat // 2 = 48`, the eighth-note ("and") position. -/
def TICKS_1_8 : Nat := EXPECTED_TPB / 2

/-- `ticks_per_beat // 4 = 24`, the sixteenth-note subdivision. -/
def TICKS_1_16 : Nat := EXPECTED_TPB / 4

/-- The track the heuristic leaves on a hit at tick `tk` with previous track
`oldT`, given the tick of the following hit (if any): a strong-beat hit whose
successor is exactly one sixteenth later goes to `right_track`; any other
strong-beat hit keeps its track; every weak-beat hit goes to `left_track`.
(The comparison `next_tick - tick == TICKS_1_16` of the source is
`n = tk + TICKS_1_16` here: hit ticks are collected in ascending order, and
on naturals both sides agree even for `n < tk`.) -/
def newTrack (left_track right_track oldT tk : Nat) (next : Option Nat) : Nat :=
  if tk % EXPECTED_TPB = 0 ∨ tk % EXPECTED_TPB = TICKS_1_8 then
    match next with
    | some n => if n = tk + TICKS_1_16 then right_track else oldT
    | none => oldT
  else left_track

/-- Walk the events of one tick (key `tk`), threading the suffix of the
global hit-tick list that starts at the first hit of this tick: each hit
consumes one element, and its lookahead is the head of the rest. -/
def assignEvs (notes : List Nat) (left_track right_track tk : Nat) :
    List Event → List Nat → List Event × List Nat
  | [], hts => ([], hts)
  | e :: es, hts =>
    if isHit notes e then
      ({ e with track := newTrack left_track right_track e.track tk hts.tail.head? } ::
        (assignEvs notes left_track right_track tk es hts.tail).1,
       (assignEvs notes left_track right_track tk es hts.tail).2)
    else
      (e :: (assignEvs notes left_track right_track tk es hts).1,
       (assignEvs notes left_track right_track tk es hts).2)

/-- Walk the table entries in tick order, threading the hit-tick list. -/
def assignTable (notes : List Nat) (left_track right_track : Nat) :
    EventTable → List Nat → EventTable
  | [], _ => []
  | (tk, evs) :: rest, hts =>
    (tk, (assignEvs notes left_track right_track tk evs hts).1) ::
      assignTable notes left_track right_track rest
        (assignEvs notes left_track right_track tk evs hts).2

/-- The tick (table key) of every hit, in ascending tick order — the
`note_hits` list of the source, restricted to the fields the algorithm
reads. -/
def hitTicks (notes : List Nat) (t : EventTable) : List Nat :=
  t.flatMap (fun p => (p.2.filter (isHit notes)).map (fun _ => p.1))

/-- `assign_hands_for_note`: collect the hits of `notes` in ascending tick
order and reroute each one according to `newTrack`, using the tick of the
following hit as lookahead. -/
def assign_hands_for_note (t : EventTable) (notes : List Nat)
    (left_track right_track : Nat) : EventTable :=
  let s := sortByKey (fun p => p.1) t
  assignTable notes left_track right_track s (hitTicks notes s)

/-- All events of the table in ascending tick order (the Python
`for tick in sorted(events_by_tick.keys())` traversal of `write_midi`). -/
def allEventsSorted (t : EventTable) : List Event :=
  (sortByKey (fun p => p.1) t).flatMap (fun p => p.2)

/-- The events routed to output track `k`, in the order `write_midi`
accumulates them (ascending tick, then within-tick order). -/
def eventsOfTrack (t : EventTable) (k : Nat) : List Event :=
  (allEventsSorted t).filter (fun e => e.track = k)

/-- Insert a number into an ascending duplicate-free list. -/
def insDistinct (n : Nat) : List Nat → List Nat
  | [] => [n]
  | m :: rest =>
    if n < m then n :: m :: rest
    else if n = m then m :: rest
    else m :: insDistinct n rest

/-- The distinct track identifiers present in the table, ascending — the
`sorted(track_events.keys())` iteration of `write_midi`. -/
def trackKeys (t : EventTable) : List Nat :=
  ((allEventsSorted t).map (fun e => e.track)).foldl
    (fun acc k => insDistinct k acc) []

/-- The synthesized note-off paired with a note-on message: same note and
channel, velocity 0 (`Message('note_off', note=..., velocity=0, channel=...)`,
whose mido default delta time is 0). -/
def mkNoteOff (m : Msg) : Msg :=
  { type := MsgType.note_off, note := m.note, velocity := 0,
    channel := m.channel, time := 0 }

/-- The flat `(absolute tick, message)` contributions of one event: the event
itself and, for a note-on, its synthetic note-off at
`tick + DEFAULT_DURATION`. -/
def flatOfEvent (e : Event) : List (Nat × Msg) :=
  if e.msg.type = MsgType.note_on then
    [(e.tick, e.msg), (e.tick + DEFAULT_DURATION, mkNoteOff e.msg)]
  else
    [(e.tick, e.msg)]

/-- The sorted absolute-time message timeline of output track `k`
(`flat_events` after the stable `sort(key=lambda e: e[0])`). -/
def trackTimeline (t : EventTable) (k : Nat) : List (Nat × Msg) :=
  sortByKey (fun p => p.1) ((eventsOfTrack t k).flatMap flatOfEvent)

/-- Re-encode an absolute-time timeline as delta times
(`msg.copy(time=delta)` with a running `last_tick` cursor starting at 0). -/
def deltaEncode (last : Nat) : List (Nat × Msg) → List Msg
  | [] => []
  | (tk, m) :: rest => { m with time := tk - last } :: deltaEncode tk rest

/-- The track identifiers `write_midi` actually emits: all of them for a
negative `in_track`, else only the selected one. -/
def writtenKeys (t : EventTable) (in_track : Int) : List Nat :=
  (trackKeys t).filter (fun k => ¬ (0 ≤ in_track ∧ (k : Int) ≠ in_track))

/-- The per-track message lists of the output container, before naming. -/
def buildTracks (t : EventTable) (in_track : Int) : List (List Msg) :=
  (writtenKeys t in_track).map (fun k => deltaEncode 0 (trackTimeline t k))

/-- `write_midi`: build the per-track delta-time message lists and name the
first two tracks `RH` and `LH`.  With fewer than two built tracks the
attribute accesses `new_mid.tracks[0]` / `tracks[1]` raise an `IndexError`
before the file is saved, so nothing is written. -/
def write_midi (t : EventTable) (in_track : Int) :
    Except PipelineError (List (String × List Msg)) :=
  match buildTracks t in_track with
  | t0 :: t1 :: rest =>
    Except.ok (("RH", t0) :: ("LH", t1) :: rest.map (fun m => ("", m)))
  | _ => Except.error PipelineError.indexError

/-- The full rule script of `main`, in declared order. -/
def transform (events : EventTable) : EventTable :=
  let e1 := replace_composite_notes events [110, 98] 48
  let e2 := replace_composite_notes e1 [111, 99] 45
  let e3 := replace_composite_notes e2 [112, 100] 43
  let e4 := replace_single_note e3 96 36
  let e5 := replace_single_note e4 95 36
  let e6 := replace_single_note e5 97 38
  let e7 := replace_single_note e6 98 42
  let e8 := replace_single_note e7 99 51
  let e9 := replace_single_note e8 100 49
  let e10 := replace_note_if_velocity e9 49 127 44
  let e11 := replace_note_if_velocity e10 42 127 46
  let e12 := replace_velocity_if_velocity e11 1 20
  let e13 := replace_note_track e12 [38] 5
  let e14 := assign_hands_for_note e13 [38, 42] 5 6
  let e15 := assign_hands_for_note e14 [38, 48, 45, 43] 5 6
  let e16 := detect_flam e15 38 127 38 5 6
  let e17 := replace_track e16 0 2
  let e18 := replace_track e17 1 2
  replace_track e18 6 2

/-- `main`: ingest, transform, write all tracks. -/
def main_pipeline (mid : MidiFileIn) :
    Except PipelineError (List (String × List Msg)) := do
  let events ← read_midi_events mid
  write_midi (transform events) (-1)

/-- The hits of `notes` in the table, each paired with its tick key, in table
entry order (ascending tick once the table is sorted): the `note_hits` list
of `assign_hands_for_note` with the event alongside its tick. -/
def hitPairs (notes : List Nat) (t : EventTable) : List (Nat × Event) :=
  t.flatMap (fun p => (p.2.filter (isHit notes)).map (fun e => (p.1, e)))

/-- Modelled from the spec (section 4.4 as amended by the code): route each
hit of the chronological hit sequence, looking ahead to the tick of the next
hit; `k` is the list of hit ticks that FOLLOW the given sequence (empty for
the full sequence). -/
def routeK (left_track right_track : Nat) (k : List Nat) :
    List (Nat × Event) → List (Nat × Event)
  | [] => []
  | (tk, e) :: rest =>
    let nxt := (rest.map Prod.fst ++ k).head?
    (tk, { e with track := newTrack left_track right_track e.track tk nxt }) ::
      routeK left_track right_track k rest

/-- Modelled from the spec (section 4.4, amended): the per-hit routing rule —
a strong-beat hit (tick mod 96 in {0, 48}) whose successor is exactly 24
ticks later goes to the right-hand track, every weak-beat hit goes to the
left-hand track, and any other strong-beat hit keeps its previous track. -/
def routeHits (left_track right_track : Nat) :
    List (Nat × Event) → List (Nat × Event)
  | [] => []
  | (tk, e) :: rest =>
    let nxt := (rest.head?).map Prod.fst
    (tk, { e with track := newTrack left_track right_track e.track tk nxt }) ::
      routeHits left_track right_track rest

/-- A note-on message with the given note and velocity on channel 0
(concrete-input helper). -/
def noteOnMsg (n v : Nat) : Msg :=
  { type := MsgType.note_on, note := n, velocity := v, channel := 0, time := 0 }

/-- A note-on event at the given tick, track, note, velocity
(concrete-input helper). -/
def sampleEv (tk tr n v : Nat) : Event :=
  { tick := tk, track := tr, msg := noteOnMsg n v }

/-- The table invariant of the spec: no event ever carries a note-off
message. -/
def noteOffFree (t : EventTable) : Prop :=
  ∀ e ∈ tableEvents t, e.msg.type ≠ MsgType.note_off

/-- Reference update of a hit segment sharing tick key `tk`, threading the
hit-tick suffix that starts at the segment (proof scaffolding for the
hand-assignment theorem). -/
def stepUpd (left_track right_track tk : Nat) :
    List Nat → List Event → List Event
  | _, [] => []
  | hts, e :: es =>
    { e with track := newTrack left_track right_track e.track tk hts.tail.head? } ::
      stepUpd left_track right_track tk hts.tail es

theorem insOrd_perm {α : Type} (key : α → Nat) (x : α) (l : List α) :
    List.Perm (insOrd key x l) (x :: l) := by
  induction l with
  | nil => exact List.Perm.refl _
  | cons y ys ih =>
    unfold insOrd
    split
    · exact List.Perm.refl _
    · exact List.Perm.trans (List.Perm.cons y ih) (List.Perm.swap x y ys)

theorem sortAux_perm {α : Type} (key : α → Nat) (l acc : List α) :
    List.Perm (l.foldl (fun acc x => insOrd key x acc) acc) (acc ++ l) := by
  induction l generalizing acc with
  | nil => simp
  | cons x xs ih =>
    simp only [List.foldl_cons]
    refine List.Perm.trans (ih (insOrd key x acc)) ?_
    refine List.Perm.trans (List.Perm.append_right xs (insOrd_perm key x acc)) ?_
    exact List.perm_middle.symm

theorem sortByKey_perm {α : Type} (key : α → Nat) (l : List α) :
    List.Perm (sortByKey key l) l := by
  simpa using sortAux_perm key l []

theorem mem_sortByKey {α : Type} (key : α → Nat) (l : List α) (x : α) :
    x ∈ sortByKey key l ↔ x ∈ l :=
  (sortByKey_perm key l).mem_iff

/-- Claim C1 (code bug): the composite-note replacement rule compares the
COUNT of note-ons whose note is in the match set against the SIZE of the
match set, not set coverage.  Consequently (first conjunct) a tick holding
two note-ons of note 110 and no note 98 at all is still collapsed into a
single replacement note 48 against the match set 110 + 98, violating the
claim and the function's own docstring ("Only applies when all match_notes
are present in a tick"); and (second conjunct) a tick holding 110, 98 and a
second 110 — every member of the match set present — is left completely
unchanged, violating the claim's "if" direction as well. -/
theorem replace_composite_notes_counting_bug :
    replace_composite_notes
        [(0, [sampleEv 0 0 110 100, sampleEv 0 0 110 90])] [110, 98] 48
      = [(0, [sampleEv 0 0 48 100])] ∧
    replace_composite_notes
        [(0, [sampleEv 0 0 110 100, sampleEv 0 0 98 80, sampleEv 0 0 110 90])]
        [110, 98] 48
      = [(0, [sampleEv 0 0 110 100, sampleEv 0 0 98 80, sampleEv 0 0 110 90])] := by
  constructor
  · decide
  · decide

/-- Claim C9: the unconditional single-note remap is not self-inverse: for
this table holding a note-on with source note 96, remapping 96 to 36 twice
does not return the original table (the note stays 36), so re-applying the
rule script to its own output cannot reproduce or undo a conversion. -/
theorem replace_single_note_not_self_inverse :
    replace_single_note
        (replace_single_note [(0, [sampleEv 0 0 96 100])] 96 36) 96 36
      ≠ [(0, [sampleEv 0 0 96 100])] := by
  decide

theorem singleNoteEv_idem (from_note to_note : Nat) (h : from_note ≠ to_note)
    (e : Event) :
    singleNoteEv from_note to_note (singleNoteEv from_note to_note e)
      = singleNoteEv from_note to_note e := by
  unfold singleNoteEv
  split
  · rw [if_neg]
    intro hc
    exact h hc.2.symm
  · rfl

/-- Claim C10: the unconditional single-note remap is idempotent whenever
source and target note differ: after one application no note-on carries
`from_note` any more, so a second application changes nothing. -/
theorem replace_single_note_idempotent (t : EventTable)
    (from_note to_note : Nat) (h : from_note ≠ to_note) :
    replace_single_note (replace_single_note t from_note to_note) from_note to_note
      = replace_single_note t from_note to_note := by
  unfold replace_single_note
  rw [List.map_map]
  have hfun : singleNoteEv from_note to_note ∘ singleNoteEv from_note to_note
      = singleNoteEv from_note to_note :=
    funext (singleNoteEv_idem from_note to_note h)
  apply List.map_congr_left
  intro p _
  simp only [Function.comp_apply, List.map_map, hfun]

/-- Witness for C10 at a concrete input: remapping 96 to 36 twice equals
remapping once on a one-event table. -/
theorem replace_single_note_idempotent_witness :
    replace_single_note
        (replace_single_note [(0, [sampleEv 0 0 96 100])] 96 36) 96 36
      = replace_single_note [(0, [sampleEv 0 0 96 100])] 96 36 :=
  replace_single_note_idempotent [(0, [sampleEv 0 0 96 100])] 96 36 (by decide)

/-- Claim C8: the unconditional single-note remap is total — every tick entry
is preserved with its key and event count, every note-on with
`note = from_note` has its note set to `to_note` with message type, velocity,
channel, time, tick and track untouched, and every other event (other note
numbers and non-note-on messages alike) is left identical. -/
theorem replace_single_note_total (t : EventTable) (from_note to_note : Nat)
    (i tk : Nat) (evs : List Event) (hi : t[i]? = some (tk, evs)) :
    ∃ evs', (replace_single_note t from_note to_note)[i]? = some (tk, evs') ∧
      evs'.length = evs.length ∧
      ∀ (j : Nat) (e : Event), evs[j]? = some e →
        ((e.msg.type = MsgType.note_on ∧ e.msg.note = from_note →
            evs'[j]? = some { e with msg := { e.msg with note := to_note } }) ∧
         (¬ (e.msg.type = MsgType.note_on ∧ e.msg.note = from_note) →
            evs'[j]? = some e)) := by
  refine ⟨evs.map (singleNoteEv from_note to_note), ?_, by simp, ?_⟩
  · unfold replace_single_note
    rw [List.getElem?_map, hi]
    rfl
  · intro j e hj
    constructor
    · intro hc
      rw [List.getElem?_map, hj]
      simp only [Option.map_some', singleNoteEv, if_pos hc]
    · intro hc
      rw [List.getElem?_map, hj]
      simp only [Option.map_some', singleNoteEv, if_neg hc]

/-- Witness for C8: a table with a matching note-on (96, remapped to 36), a
non-matching note-on (42, untouched) and a non-note message (untouched). -/
theorem replace_single_note_total_witness :
    ∃ evs', (replace_single_note
        [(0, [sampleEv 0 0 96 100, sampleEv 0 0 42 50,
              { tick := 0, track := 0, msg :=
                { type := MsgType.other 7, note := 0, velocity := 0,
                  channel := 0, time := 0 } }])] 96 36)[0]?
      = some (0, evs') ∧
      evs'.length = 3 ∧
      ∀ (j : Nat) (e : Event), [sampleEv 0 0 96 100, sampleEv 0 0 42 50,
              { tick := 0, track := 0, msg :=
                { type := MsgType.other 7, note := 0, velocity := 0,
                  channel := 0, time := 0 } }][j]? = some e →
        ((e.msg.type = MsgType.note_on ∧ e.msg.note = 96 →
            evs'[j]? = some { e with msg := { e.msg with note := 36 } }) ∧
         (¬ (e.msg.type = MsgType.note_on ∧ e.msg.note = 96) →
            evs'[j]? = some e)) :=
  replace_single_note_total
    [(0, [sampleEv 0 0 96 100, sampleEv 0 0 42 50,
          { tick := 0, track := 0, msg :=
            { type := MsgType.other 7, note := 0, velocity := 0,
              channel := 0, time := 0 } }])] 96 36 0 0
    [sampleEv 0 0 96 100, sampleEv 0 0 42 50,
     { tick := 0, track := 0, msg :=
       { type := MsgType.other 7, note := 0, velocity := 0,
         channel := 0, time := 0 } }] rfl

/-- Claim C6: ingestion fails with the resolution mismatch exactly when the
container's declared ticks-per-beat differs from the expected 96; when it
matches, the event table is built with no further validation (any note
numbers, however out of range, pass through); and on a mismatch the whole
pipeline stops with that error, before any transform runs and before any
output is produced. -/
theorem read_midi_events_resolution (m : MidiFileIn) :
    (read_midi_events m
        = Except.error (PipelineError.resolutionMismatch m.ticks_per_beat)
      ↔ m.ticks_per_beat ≠ EXPECTED_TPB) ∧
    (m.ticks_per_beat = EXPECTED_TPB →
      read_midi_events m = Except.ok (ingestTracks m.tracks)) ∧
    (m.ticks_per_beat ≠ EXPECTED_TPB →
      main_pipeline m
        = Except.error (PipelineError.resolutionMismatch m.ticks_per_beat)) := by
  refine ⟨⟨?_, ?_⟩, ?_, ?_⟩
  · intro h hne
    rw [read_midi_events, if_neg (by simpa using hne)] at h
    cases h
  · intro hne
    rw [read_midi_events, if_pos hne]
  · intro heq
    rw [read_midi_events, if_neg (by simpa using heq)]
  · intro hne
    rw [main_pipeline, read_midi_events, if_pos hne]
    rfl

/-- Witness for C6: a container with ticks-per-beat 480 is rejected by
ingestion and by the whole pipeline; one with ticks-per-beat 96 and an
out-of-range note number 300 is ingested without complaint. -/
theorem read_midi_events_resolution_witness :
    read_midi_events { ticks_per_beat := 480, tracks := [] }
      = Except.error (PipelineError.resolutionMismatch 480) ∧
    main_pipeline { ticks_per_beat := 480, tracks := [] }
      = Except.error (PipelineError.resolutionMismatch 480) ∧
    read_midi_events { ticks_per_beat := 96, tracks := [[noteOnMsg 300 10]] }
      = Except.ok (ingestTracks [[noteOnMsg 300 10]]) :=
  ⟨(read_midi_events_resolution { ticks_per_beat := 480, tracks := [] }).1.mpr
      (by decide),
   (read_midi_events_resolution { ticks_per_beat := 480, tracks := [] }).2.2
      (by decide),
   (read_midi_events_resolution { ticks_per_beat := 96, tracks := [[noteOnMsg 300 10]] }).2.1 rfl⟩

theorem allEventsSorted_of_tableEvents_nil (t : EventTable)
    (h : tableEvents t = []) : allEventsSorted t = [] := by
  unfold allEventsSorted
  rw [List.flatMap_eq_nil_iff]
  intro p hp
  exact List.flatMap_eq_nil_iff.mp h p ((mem_sortByKey _ t p).mp hp)

/-- Claim C3 (amended): if the final Event Table holds no events at all —
in particular zero tracks — the Timeline Synthesizer does NOT complete: the
track-naming statements index the first two output tracks of an empty track
list and fail with an index error before anything is written. -/
theorem write_midi_zero_tracks_fails (t : EventTable) (in_track : Int)
    (h : tableEvents t = []) :
    write_midi t in_track = Except.error PipelineError.indexError := by
  have ha : allEventsSorted t = [] := allEventsSorted_of_tableEvents_nil t h
  unfold write_midi buildTracks writtenKeys trackKeys
  rw [ha]
  rfl

/-- Witness for the amended claim C3 at the empty table. -/
theorem write_midi_zero_tracks_fails_witness :
    write_midi ([] : EventTable) (-1) = Except.error PipelineError.indexError :=
  write_midi_zero_tracks_fails [] (-1) rfl

/-- Counterexample to claim C3 as stated: on an Event Table with zero tracks
the Timeline Synthesizer does not complete without error — there is no
successfully produced output container at all. -/
theorem write_midi_zero_tracks_counterexample :
    ¬ ∃ out, write_midi ([] : EventTable) (-1) = Except.ok out := by
  intro h
  obtain ⟨out, hout⟩ := h
  rw [show write_midi ([] : EventTable) (-1)
      = Except.error PipelineError.indexError from rfl] at hout
  exact Except.noConfusion hout

theorem mem_of_getElem_opt {α : Type} {l : List α} {j : Nat} {a : α}
    (h : l[j]? = some a) : a ∈ l := by
  obtain ⟨hlt, he⟩ := List.getElem?_eq_some.mp h
  exact he ▸ List.getElem_mem hlt

/-- Claim C4: for every tick entry, the flam rule adds exactly one event per
matching note-on (so the tick's event count grows by the number of matches):
each matching event is replaced in place by a copy on `right_track` (the
off-hand track of this conversion profile, cf. section 4.4 of the spec where
the dominant hand is the default/left track) with the fixed output note and
velocity 100, a duplicate differing from it only in its `left_track`
assignment is appended at the same tick, and every event not matching both
the note and the velocity condition is left unchanged in place. -/
theorem detect_flam_expands (t : EventTable)
    (from_note from_vel to_note left_track right_track : Nat)
    (i tk : Nat) (evs : List Event)
    (hi : t[i]? = some (tk, evs))
    (htick : ∀ e ∈ evs, e.tick = tk) :
    ∃ evs',
      (detect_flam t from_note from_vel to_note left_track right_track)[i]?
        = some (tk, evs') ∧
      evs'.length
        = evs.length + (evs.filter (flamMatch from_note from_vel)).length ∧
      (∀ (j : Nat) (e : Event), evs[j]? = some e →
        flamMatch from_note from_vel e = true →
        evs'[j]? = some
          (⟨tk, right_track, { e.msg with note := to_note, velocity := 100 }⟩ : Event)) ∧
      (∀ (j : Nat) (e : Event), evs[j]? = some e →
        flamMatch from_note from_vel e = false →
        evs'[j]? = some e) ∧
      (∀ (j : Nat) (e : Event),
        (evs.filter (flamMatch from_note from_vel))[j]? = some e →
        evs'[evs.length + j]? = some
          (⟨tk, left_track, { e.msg with note := to_note, velocity := 100 }⟩ : Event)) := by
  refine ⟨flamTick from_note from_vel to_note left_track right_track tk evs,
    ?_, ?_, ?_, ?_, ?_⟩
  · unfold detect_flam
    rw [List.getElem?_map, hi]
    rfl
  · simp [flamTick]
  · intro j e hj hm
    have hlt : j < evs.length := (List.getElem?_eq_some.mp hj).1
    unfold flamTick
    rw [List.getElem?_append, if_pos (by simpa using hlt)]
    rw [List.getElem?_map, hj, Option.map_some']
    rw [if_pos hm]
    have he : e.tick = tk := htick e (mem_of_getElem_opt hj)
    rw [show ({ e with
        msg := { e.msg with note := to_note, velocity := 100 },
        track := right_track } : Event)
      = (⟨e.tick, right_track, { e.msg with note := to_note, velocity := 100 }⟩ : Event)
      from rfl, he]
  · intro j e hj hm
    have hlt : j < evs.length := (List.getElem?_eq_some.mp hj).1
    unfold flamTick
    rw [List.getElem?_append, if_pos (by simpa using hlt)]
    rw [List.getElem?_map, hj, Option.map_some']
    rw [if_neg (by simp [hm])]
  · intro j e hj
    unfold flamTick
    rw [List.getElem?_append, if_neg (by simp)]
    simp only [List.length_map]
    rw [show evs.length + j - evs.length = j by omega]
    rw [List.getElem?_map, hj, Option.map_some']

/-- Witness for C4: a tick with one matching note-on (38 at velocity 127)
and one non-matching note-on grows from two events to three. -/
theorem detect_flam_expands_witness :
    ∃ evs',
      (detect_flam [(0, [sampleEv 0 5 38 127, sampleEv 0 3 42 90])]
          38 127 38 5 6)[0]? = some (0, evs') ∧
      evs'.length = 3 := by
  obtain ⟨evs', h1, h2, h3, h4, h5⟩ :=
    detect_flam_expands [(0, [sampleEv 0 5 38 127, sampleEv 0 3 42 90])]
      38 127 38 5 6 0 0 [sampleEv 0 5 38 127, sampleEv 0 3 42 90]
      (by decide) (by decide)
  refine ⟨evs', h1, ?_⟩
  rw [h2]
  decide

theorem pyMinAux_mem (l : List Event) (acc : Option Event) (b : Event)
    (h : l.foldl pyMinStep acc = some b) : acc = some b ∨ b ∈ l := by
  induction l generalizing acc with
  | nil => exact Or.inl h
  | cons e es ih =>
    simp only [List.foldl_cons] at h
    rcases ih _ h with hacc | hmem
    · cases acc with
      | none =>
        injection hacc with h'
        exact Or.inr (h' ▸ List.mem_cons_self e es)
      | some m =>
        simp only [pyMinStep] at hacc
        split at hacc
        · injection hacc with h'
          exact Or.inr (h' ▸ List.mem_cons_self e es)
        · exact Or.inl hacc
    · exact Or.inr (List.mem_cons_of_mem e hmem)

theorem pyMinByNote_mem (l : List Event) (b : Event)
    (h : pyMinByNote l = some b) : b ∈ l := by
  rcases pyMinAux_mem l none b h with hacc | hmem
  · exact absurd hacc (by simp)
  · exact hmem

theorem compositeTick_types (match_notes : List Nat) (replace_with : Nat)
    (events : List Event) (e' : Event)
    (he' : e' ∈ compositeTick match_notes replace_with events) :
    e'.msg.type = MsgType.note_on ∨ e' ∈ events := by
  simp only [compositeTick] at he'
  split at he'
  · split at he'
    · next base_event hbase =>
      simp only [List.append_assoc, List.mem_append] at he'
      rcases he' with hrem | hnew | hoth
      · exact Or.inr (List.mem_filter.mp (List.mem_filter.mp hrem).1).1
      · rw [List.mem_singleton] at hnew
        subst hnew
        have hb : base_event ∈ events.filter
            (fun e => decide (e.msg.type = MsgType.note_on)) :=
          (List.mem_filter.mp (pyMinByNote_mem _ _ hbase)).1
        have := (List.mem_filter.mp hb).2
        exact Or.inl (by simpa using this)
      · exact Or.inr (List.mem_filter.mp hoth).1
    · exact Or.inr he'
  · exact Or.inr he'

theorem tableEvents_tableInsert (tick : Nat) (e : Event) (t : EventTable)
    (e' : Event) (he' : e' ∈ tableEvents (tableInsert tick e t)) :
    e' = e ∨ e' ∈ tableEvents t := by
  induction t with
  | nil =>
    simp [tableEvents, tableInsert] at he'
    exact Or.inl he'
  | cons p rest ih =>
    obtain ⟨k, evs⟩ := p
    unfold tableInsert at he'
    split at he'
    · simp only [tableEvents, List.flatMap_cons, List.mem_append] at he'
      rcases he' with hin | hin
      · rcases hin with hin | hin
        · exact Or.inr (by simp [tableEvents]; exact Or.inl hin)
        · exact Or.inl (List.mem_singleton.mp hin)
      · exact Or.inr (by simp [tableEvents]; exact Or.inr (by simpa [tableEvents] using hin))
    · split at he'
      · simp only [tableEvents, List.flatMap_cons, List.mem_append] at he'
        rcases he' with hin | hin
        · exact Or.inl (List.mem_singleton.mp hin)
        · exact Or.inr (by simpa [tableEvents, List.flatMap_cons] using hin)
      · simp only [tableEvents, List.flatMap_cons, List.mem_append] at he'
        rcases he' with hin | hin
        · exact Or.inr (by simp [tableEvents]; exact Or.inl hin)
        · rcases ih (by simpa [tableEvents] using hin) with h1 | h1
          · exact Or.inl h1
          · exact Or.inr (by simp [tableEvents]; exact Or.inr (by simpa [tableEvents] using h1))

theorem ingestTrack_free (track_index : Nat) (msgs : List Msg)
    (abs_time : Nat) (t : EventTable) (h : noteOffFree t) :
    noteOffFree (ingestTrack track_index abs_time t msgs) := by
  induction msgs generalizing abs_time t with
  | nil => exact h
  | cons m rest ih =>
    unfold ingestTrack
    split
    · exact ih _ _ h
    · next hm =>
      refine ih _ _ ?_
      intro e' he'
      rcases tableEvents_tableInsert _ _ _ _ he' with rfl | hin
      · exact hm
      · exact h e' hin

theorem ingestTracks_free (tracks : List (List Msg)) :
    noteOffFree (ingestTracks tracks) := by
  unfold ingestTracks
  have : ∀ (l : List (Nat × List Msg)) (t0 : EventTable), noteOffFree t0 →
      noteOffFree (l.foldl (fun t p => ingestTrack p.1 0 t p.2) t0) := by
    intro l
    induction l with
    | nil => exact fun t0 h => h
    | cons p rest ih =>
      intro t0 h0
      exact ih _ (ingestTrack_free p.1 p.2 0 t0 h0)
  exact this tracks.enum [] (by intro e he; simp [tableEvents] at he)

theorem noteOffFree_map_rule (t : EventTable) (f : Event → Event)
    (hf : ∀ e, (f e).msg.type = e.msg.type) (h : noteOffFree t) :
    noteOffFree (t.map (fun p => (p.1, p.2.map f))) := by
  intro e' he'
  unfold tableEvents at he'
  rw [List.mem_flatMap] at he'
  obtain ⟨q, hq, heq⟩ := he'
  rw [List.mem_map] at hq
  obtain ⟨p, hp, rfl⟩ := hq
  simp only [List.mem_map] at heq
  obtain ⟨e, he, rfl⟩ := heq
  rw [hf]
  exact h e (List.mem_flatMap.mpr ⟨p, hp, he⟩)

theorem assignEvs_msgs (notes : List Nat) (L R tk : Nat) (evs : List Event)
    (hts : List Nat) (e' : Event)
    (he' : e' ∈ (assignEvs notes L R tk evs hts).1) :
    ∃ e ∈ evs, e'.msg = e.msg := by
  induction evs generalizing hts with
  | nil => simp [assignEvs] at he'
  | cons e es ih =>
    unfold assignEvs at he'
    split at he'
    · rcases List.mem_cons.mp he' with heq | hmem
      · exact ⟨e, List.mem_cons_self e es, by rw [heq]⟩
      · obtain ⟨e0, he0, hm⟩ := ih _ hmem
        exact ⟨e0, List.mem_cons_of_mem e he0, hm⟩
    · rcases List.mem_cons.mp he' with heq | hmem
      · exact ⟨e, List.mem_cons_self e es, by rw [heq]⟩
      · obtain ⟨e0, he0, hm⟩ := ih _ hmem
        exact ⟨e0, List.mem_cons_of_mem e he0, hm⟩

theorem assignTable_msgs (notes : List Nat) (L R : Nat) (s : EventTable)
    (hts : List Nat) (e' : Event)
    (he' : e' ∈ tableEvents (assignTable notes L R s hts)) :
    ∃ e ∈ tableEvents s, e'.msg = e.msg := by
  induction s generalizing hts with
  | nil => simp [assignTable, tableEvents] at he'
  | cons p rest ih =>
    obtain ⟨tk, evs⟩ := p
    unfold assignTable at he'
    simp only [tableEvents, List.flatMap_cons, List.mem_append] at he'
    rcases he' with hin | hin
    · obtain ⟨e, he, hm⟩ := assignEvs_msgs notes L R tk evs hts e' hin
      exact ⟨e, by simp [tableEvents]; exact Or.inl he, hm⟩
    · obtain ⟨e, he, hm⟩ := ih _ (by simpa [tableEvents] using hin)
      exact ⟨e, by simp [tableEvents]; right; simpa [tableEvents] using he, hm⟩

theorem assign_hands_free (t : EventTable) (notes : List Nat) (L R : Nat)
    (h : noteOffFree t) : noteOffFree (assign_hands_for_note t notes L R) := by
  intro e' he'
  unfold assign_hands_for_note at he'
  obtain ⟨e, he, hm⟩ := assignTable_msgs notes L R _ _ e' he'
  rw [hm]
  unfold tableEvents at he
  rw [List.mem_flatMap] at he
  obtain ⟨p, hp, hep⟩ := he
  exact h e (List.mem_flatMap.mpr ⟨p, (mem_sortByKey _ t p).mp hp, hep⟩)

theorem flamTick_types (from_note from_vel to_note L R tk : Nat)
    (evs : List Event) (e' : Event)
    (he' : e' ∈ flamTick from_note from_vel to_note L R tk evs) :
    ∃ e ∈ evs, e'.msg.type = e.msg.type := by
  unfold flamTick at he'
  rw [List.mem_append] at he'
  rcases he' with hin | hin
  · rw [List.mem_map] at hin
    obtain ⟨e, he, rfl⟩ := hin
    refine ⟨e, he, ?_⟩
    split
    · rfl
    · rfl
  · rw [List.mem_map] at hin
    obtain ⟨e, he, rfl⟩ := hin
    exact ⟨e, (List.mem_filter.mp he).1, rfl⟩

theorem detect_flam_free (t : EventTable)
    (from_note from_vel to_note L R : Nat) (h : noteOffFree t) :
    noteOffFree (detect_flam t from_note from_vel to_note L R) := by
  intro e' he'
  unfold detect_flam tableEvents at he'
  rw [List.mem_flatMap] at he'
  obtain ⟨q, hq, heq⟩ := he'
  rw [List.mem_map] at hq
  obtain ⟨p, hp, rfl⟩ := hq
  obtain ⟨e, he, hm⟩ := flamTick_types from_note from_vel to_note L R p.1 p.2 e' heq
  rw [hm]
  exact h e (List.mem_flatMap.mpr ⟨p, hp, he⟩)

theorem replace_composite_notes_free (t : EventTable)
    (match_notes : List Nat) (replace_with : Nat) (h : noteOffFree t) :
    noteOffFree (replace_composite_notes t match_notes replace_with) := by
  intro e' he'
  unfold replace_composite_notes tableEvents at he'
  rw [List.mem_flatMap] at he'
  obtain ⟨q, hq, heq⟩ := he'
  rw [List.mem_map] at hq
  obtain ⟨p, hp, rfl⟩ := hq
  rcases compositeTick_types match_notes replace_with p.2 e' heq with hon | hin
  · rw [hon]
    intro hc
    cases hc
  · exact h e' (List.mem_flatMap.mpr ⟨p, hp, hin⟩)

/-- Claim C7: immediately after ingestion the Event Table holds no
note-off-typed Event (ingestion discards every input note-off), and every
rewrite-rule pass of the script — composite collapse, single-note remap,
hand assignment, track merges, the conditional note/velocity remaps and the
flam expansion — preserves that invariant: no rule ever introduces a
note-off-typed Event. -/
theorem noteOff_never_in_table :
    (∀ (m : MidiFileIn) (t : EventTable), read_midi_events m = Except.ok t →
      noteOffFree t) ∧
    (∀ (t : EventTable) (mn : List Nat) (r : Nat), noteOffFree t →
      noteOffFree (replace_composite_notes t mn r)) ∧
    (∀ (t : EventTable) (a b : Nat), noteOffFree t →
      noteOffFree (replace_single_note t a b)) ∧
    (∀ (t : EventTable) (notes : List Nat) (L R : Nat), noteOffFree t →
      noteOffFree (assign_hands_for_note t notes L R)) ∧
    (∀ (t : EventTable) (a b : Nat), noteOffFree t →
      noteOffFree (replace_track t a b)) ∧
    (∀ (t : EventTable) (notes : List Nat) (tr : Nat), noteOffFree t →
      noteOffFree (replace_note_track t notes tr)) ∧
    (∀ (t : EventTable) (a v b : Nat), noteOffFree t →
      noteOffFree (replace_note_if_velocity t a v b)) ∧
    (∀ (t : EventTable) (a v b L R : Nat), noteOffFree t →
      noteOffFree (detect_flam t a v b L R)) ∧
    (∀ (t : EventTable) (v w : Nat), noteOffFree t →
      noteOffFree (replace_velocity_if_velocity t v w)) := by
  refine ⟨?_, ?_, ?_, ?_, ?_, ?_, ?_, ?_, ?_⟩
  · intro m t hok
    unfold read_midi_events at hok
    split at hok
    · cases hok
    · injection hok with h'
      exact h' ▸ ingestTracks_free m.tracks
  · exact fun t mn r h => replace_composite_notes_free t mn r h
  · intro t a b h
    unfold replace_single_note
    exact noteOffFree_map_rule t _
      (fun e => by unfold singleNoteEv; split <;> rfl) h
  · exact fun t notes L R h => assign_hands_free t notes L R h
  · intro t a b h
    unfold replace_track
    exact noteOffFree_map_rule t _ (fun e => by split <;> rfl) h
  · intro t notes tr h
    unfold replace_note_track
    exact noteOffFree_map_rule t _ (fun e => by split <;> rfl) h
  · intro t a v b h
    unfold replace_note_if_velocity
    exact noteOffFree_map_rule t _ (fun e => by split <;> rfl) h
  · exact fun t a v b L R h => detect_flam_free t a v b L R h
  · intro t v w h
    unfold replace_velocity_if_velocity
    exact noteOffFree_map_rule t _ (fun e => by split <;> rfl) h

/-- Witness for C7 at concrete inputs: an input track containing a note-off
message ingests to a note-off-free table, and each rule keeps a concrete
note-off-free table note-off free. -/
theorem noteOff_never_in_table_witness :
    noteOffFree (ingestTracks
      [[noteOnMsg 96 100,
        { type := MsgType.note_off, note := 96, velocity := 0, channel := 0, time := 4 }]]) ∧
    noteOffFree (replace_composite_notes [(0, [sampleEv 0 0 110 100, sampleEv 0 0 98 80])] [110, 98] 48) ∧
    noteOffFree (replace_single_note [(0, [sampleEv 0 0 96 100])] 96 36) ∧
    noteOffFree (assign_hands_for_note [(0, [sampleEv 0 5 38 100])] [38] 5 6) ∧
    noteOffFree (replace_track [(0, [sampleEv 0 0 38 100])] 0 2) ∧
    noteOffFree (replace_note_track [(0, [sampleEv 0 0 38 100])] [38] 5) ∧
    noteOffFree (replace_note_if_velocity [(0, [sampleEv 0 0 49 127])] 49 127 44) ∧
    noteOffFree (detect_flam [(0, [sampleEv 0 5 38 127])] 38 127 38 5 6) ∧
    noteOffFree (replace_velocity_if_velocity [(0, [sampleEv 0 0 38 1])] 1 20) :=
  ⟨noteOff_never_in_table.1
      { ticks_per_beat := 96,
        tracks := [[noteOnMsg 96 100,
          { type := MsgType.note_off, note := 96, velocity := 0, channel := 0, time := 4 }]] }
      _ rfl,
   noteOff_never_in_table.2.1 _ [110, 98] 48 (by unfold noteOffFree; decide),
   noteOff_never_in_table.2.2.1 _ 96 36 (by unfold noteOffFree; decide),
   noteOff_never_in_table.2.2.2.1 _ [38] 5 6 (by unfold noteOffFree; decide),
   noteOff_never_in_table.2.2.2.2.1 _ 0 2 (by unfold noteOffFree; decide),
   noteOff_never_in_table.2.2.2.2.2.1 _ [38] 5 (by unfold noteOffFree; decide),
   noteOff_never_in_table.2.2.2.2.2.2.1 _ 49 127 44 (by unfold noteOffFree; decide),
   noteOff_never_in_table.2.2.2.2.2.2.2.1 _ 38 127 38 5 6 (by unfold noteOffFree; decide),
   noteOff_never_in_table.2.2.2.2.2.2.2.2 _ 1 20 (by unfold noteOffFree; decide)⟩

theorem mem_allEventsSorted (t : EventTable) (e : Event) :
    e ∈ allEventsSorted t ↔ e ∈ tableEvents t := by
  unfold allEventsSorted tableEvents
  constructor
  · intro h
    rw [List.mem_flatMap] at h ⊢
    obtain ⟨p, hp, he⟩ := h
    exact ⟨p, (mem_sortByKey _ t p).mp hp, he⟩
  · intro h
    rw [List.mem_flatMap] at h ⊢
    obtain ⟨p, hp, he⟩ := h
    exact ⟨p, (mem_sortByKey _ t p).mpr hp, he⟩

theorem countP_flat_noteoff (evs : List Event)
    (h : ∀ e ∈ evs, e.msg.type ≠ MsgType.note_off) :
    (evs.flatMap flatOfEvent).countP (fun p => p.2.type == MsgType.note_off)
      = evs.countP (fun e => e.msg.type == MsgType.note_on) := by
  induction evs with
  | nil => rfl
  | cons e es ih =>
    rw [List.flatMap_cons, List.countP_append, List.countP_cons]
    rw [ih (fun x hx => h x (List.mem_cons_of_mem e hx))]
    unfold flatOfEvent
    split
    · next hon =>
      simp only [List.countP_cons, List.countP_nil, mkNoteOff, hon]
      simp [Nat.add_comm]
    · next hoff =>
      have hne := h e (List.mem_cons_self e es)
      simp only [List.countP_cons, List.countP_nil]
      rw [show ((e.msg.type == MsgType.note_off) = false) from beq_eq_false_iff_ne.mpr hne,
        show ((e.msg.type == MsgType.note_on) = false) from beq_eq_false_iff_ne.mpr hoff]
      simp

/-- Claim C5: the Timeline Synthesizer pairs every note-on of every emitted
output track with a synthesized note-off in the same track at exactly
`tick + DEFAULT_DURATION`, carrying the same note number and channel and
velocity 0; and (given the pipeline invariant that the table itself holds no
note-off events) those synthesized messages are the only note-offs in the
output — their count equals the note-on count, and each one originates from
a note-on of that track. -/
theorem write_midi_noteoffs (t : EventTable) (in_track : Int) (k : Nat)
    (hk : k ∈ writtenKeys t in_track) :
    (deltaEncode 0 (trackTimeline t k)) ∈ buildTracks t in_track ∧
    (∀ e ∈ eventsOfTrack t k, e.msg.type = MsgType.note_on →
      (e.tick + DEFAULT_DURATION, mkNoteOff e.msg) ∈ trackTimeline t k) ∧
    (noteOffFree t →
      ∀ p ∈ trackTimeline t k, p.2.type = MsgType.note_off →
        ∃ e ∈ eventsOfTrack t k, e.msg.type = MsgType.note_on ∧
          p.1 = e.tick + DEFAULT_DURATION ∧ p.2 = mkNoteOff e.msg) ∧
    (noteOffFree t →
      (trackTimeline t k).countP (fun p => p.2.type == MsgType.note_off)
        = (eventsOfTrack t k).countP (fun e => e.msg.type == MsgType.note_on)) := by
  have hmemtt : ∀ e ∈ eventsOfTrack t k, e ∈ tableEvents t := by
    intro e he
    exact (mem_allEventsSorted t e).mp (List.mem_filter.mp he).1
  have hperm := sortByKey_perm (fun p : Nat × Msg => p.1)
    ((eventsOfTrack t k).flatMap flatOfEvent)
  refine ⟨?_, ?_, ?_, ?_⟩
  · unfold buildTracks
    exact List.mem_map.mpr ⟨k, hk, rfl⟩
  · intro e he hon
    unfold trackTimeline
    rw [hperm.mem_iff, List.mem_flatMap]
    refine ⟨e, he, ?_⟩
    unfold flatOfEvent
    rw [if_pos hon]
    simp
  · intro hfree p hp hoff
    unfold trackTimeline at hp
    rw [hperm.mem_iff, List.mem_flatMap] at hp
    obtain ⟨e, he, hpe⟩ := hp
    unfold flatOfEvent at hpe
    split at hpe
    · next hon =>
      rcases List.mem_cons.mp hpe with heq | hpe'
      · rw [heq] at hoff
        rw [hon] at hoff
        cases hoff
      · rcases List.mem_singleton.mp hpe' with heq
        exact ⟨e, he, hon, by rw [heq], by rw [heq]⟩
    · next hno =>
      rcases List.mem_singleton.mp hpe with heq
      rw [heq] at hoff
      exact absurd hoff (hfree e (hmemtt e he))
  · intro hfree
    unfold trackTimeline
    rw [hperm.countP_eq]
    exact countP_flat_noteoff (eventsOfTrack t k)
      (fun e he => hfree e (hmemtt e he))

/-- Witness for C5: in a two-track table written with no filtering, track 2's
note-on at tick 0 (note 36) yields a synthesized note-off pair at tick 8 in
track 2's timeline, and that timeline's note-off count equals its note-on
count. -/
theorem write_midi_noteoffs_witness :
    deltaEncode 0 (trackTimeline [(0, [sampleEv 0 2 36 100]), (4, [sampleEv 4 5 38 90])] 2)
      ∈ buildTracks [(0, [sampleEv 0 2 36 100]), (4, [sampleEv 4 5 38 90])] (-1) ∧
    (0 + DEFAULT_DURATION, mkNoteOff (noteOnMsg 36 100))
      ∈ trackTimeline [(0, [sampleEv 0 2 36 100]), (4, [sampleEv 4 5 38 90])] 2 ∧
    (trackTimeline [(0, [sampleEv 0 2 36 100]), (4, [sampleEv 4 5 38 90])] 2).countP
        (fun p => p.2.type == MsgType.note_off)
      = (eventsOfTrack [(0, [sampleEv 0 2 36 100]), (4, [sampleEv 4 5 38 90])] 2).countP
        (fun e => e.msg.type == MsgType.note_on) := by
  obtain ⟨h1, h2, h3, h4⟩ :=
    write_midi_noteoffs [(0, [sampleEv 0 2 36 100]), (4, [sampleEv 4 5 38 90])] (-1) 2
      (by decide)
  exact ⟨h1, h2 (sampleEv 0 2 36 100) (by decide) rfl,
    h4 (by unfold noteOffFree; decide)⟩

theorem isHit_set_track (notes : List Nat) (e : Event) (x : Nat) :
    isHit notes { e with track := x } = isHit notes e := rfl

theorem assignEvs_snd (notes : List Nat) (L R tk : Nat) (evs : List Event)
    (hts : List Nat) :
    (assignEvs notes L R tk evs hts).2
      = hts.drop (evs.filter (isHit notes)).length := by
  induction evs generalizing hts with
  | nil => simp [assignEvs]
  | cons e es ih =>
    unfold assignEvs
    split
    · next hhit =>
      dsimp only
      rw [ih hts.tail, List.filter_cons_of_pos hhit, List.length_cons]
      rw [← List.drop_one, List.drop_drop, Nat.add_comm]
    · next hmiss =>
      dsimp only
      rw [ih hts, List.filter_cons_of_neg (by simpa using hmiss)]

theorem assignEvs_filter (notes : List Nat) (L R tk : Nat) (evs : List Event)
    (hts : List Nat) :
    ((assignEvs notes L R tk evs hts).1).filter (isHit notes)
      = stepUpd L R tk hts (evs.filter (isHit notes)) := by
  induction evs generalizing hts with
  | nil => simp [assignEvs, stepUpd]
  | cons e es ih =>
    unfold assignEvs
    split
    · next hhit =>
      dsimp only
      rw [List.filter_cons_of_pos (by rw [isHit_set_track]; exact hhit)]
      rw [List.filter_cons_of_pos hhit]
      unfold stepUpd
      rw [ih hts.tail]
    · next hmiss =>
      dsimp only
      rw [List.filter_cons_of_neg (by simpa using hmiss)]
      rw [List.filter_cons_of_neg (by simpa using hmiss)]
      exact ih hts

theorem hitTicks_eq_map_fst (notes : List Nat) (s : EventTable) :
    hitTicks notes s = (hitPairs notes s).map Prod.fst := by
  unfold hitTicks hitPairs
  rw [List.map_flatMap]
  refine congrArg _ ?_
  funext p
  rw [List.map_map]
  rfl

theorem routeK_nil_eq_routeHits (L R : Nat) (hs : List (Nat × Event)) :
    routeK L R [] hs = routeHits L R hs := by
  induction hs with
  | nil => rfl
  | cons p rest ih =>
    obtain ⟨tk, e⟩ := p
    unfold routeK routeHits
    rw [ih]
    rw [List.append_nil, List.head?_map]

theorem stepUpd_routeK (L R tk : Nat) (hsE : List Event)
    (rest_pairs : List (Nat × Event)) (k : List Nat) :
    (stepUpd L R tk (hsE.map (fun _ => tk) ++ (rest_pairs.map Prod.fst ++ k)) hsE).map
        (fun e => (tk, e)) ++ routeK L R k rest_pairs
      = routeK L R k (hsE.map (fun e => (tk, e)) ++ rest_pairs) := by
  induction hsE with
  | nil => simp [stepUpd]
  | cons e es ih =>
    simp only [List.map_cons, List.cons_append, stepUpd, routeK, List.tail_cons,
      List.append_eq]
    rw [show ((es.map (fun e => (tk, e)) ++ rest_pairs).map Prod.fst ++ k)
        = es.map (fun _ => tk) ++ (rest_pairs.map Prod.fst ++ k) by
      rw [List.map_append, List.map_map, List.append_assoc]
      rfl]
    rw [ih]

theorem assignTable_routeK (notes : List Nat) (L R : Nat) (s : EventTable)
    (k : List Nat) :
    hitPairs notes
        (assignTable notes L R s ((hitPairs notes s).map Prod.fst ++ k))
      = routeK L R k (hitPairs notes s) := by
  induction s generalizing k with
  | nil => simp [assignTable, hitPairs, routeK]
  | cons p rest ih =>
    obtain ⟨tk, evs⟩ := p
    have hsplit : hitPairs notes ((tk, evs) :: rest)
        = (evs.filter (isHit notes)).map (fun e => (tk, e)) ++ hitPairs notes rest := by
      unfold hitPairs
      rw [List.flatMap_cons]
    have hts_eq : (hitPairs notes ((tk, evs) :: rest)).map Prod.fst ++ k
        = (evs.filter (isHit notes)).map (fun _ => tk)
            ++ ((hitPairs notes rest).map Prod.fst ++ k) := by
      rw [hsplit, List.map_append, List.map_map, List.append_assoc]
      rfl
    rw [hts_eq]
    unfold assignTable
    have hsnd : (assignEvs notes L R tk evs
          ((evs.filter (isHit notes)).map (fun _ => tk)
            ++ ((hitPairs notes rest).map Prod.fst ++ k))).2
        = (hitPairs notes rest).map Prod.fst ++ k := by
      rw [assignEvs_snd]
      rw [show (evs.filter (isHit notes)).length
          = ((evs.filter (isHit notes)).map (fun _ => tk)).length by
        rw [List.length_map]]
      exact List.drop_left _ _
    rw [hsnd]
    have hfst : hitPairs notes
        ((tk, (assignEvs notes L R tk evs
            ((evs.filter (isHit notes)).map (fun _ => tk)
              ++ ((hitPairs notes rest).map Prod.fst ++ k))).1) ::
          assignTable notes L R rest ((hitPairs notes rest).map Prod.fst ++ k))
      = ((assignEvs notes L R tk evs
            ((evs.filter (isHit notes)).map (fun _ => tk)
              ++ ((hitPairs notes rest).map Prod.fst ++ k))).1.filter
          (isHit notes)).map (fun e => (tk, e))
        ++ hitPairs notes
            (assignTable notes L R rest ((hitPairs notes rest).map Prod.fst ++ k)) := by
      unfold hitPairs
      rw [List.flatMap_cons]
    rw [hfst, assignEvs_filter, ih, stepUpd_routeK, ← hsplit]

/-- Claim C2 (amended): the hand-assignment pass is exactly the per-hit
routing rule of the spec with the two corrections the code forces — on the
chronologically ordered hit sequence (ascending tick), a strong-beat hit
(tick mod 96 in {0, 48}) whose next hit falls exactly 24 ticks later is
routed to the `right_track` parameter; a strong-beat hit with no successor,
or whose next hit is not exactly 24 ticks later, keeps its previous track
assignment; and every weak-beat hit is routed to the `left_track` parameter
(the default-hand track), NOT to the same track as the strong-beat pickup
hits.  `routeHits`/`newTrack` state that routing rule directly on the hit
sequence; the theorem says the pass realises it for every table. -/
theorem assign_hands_for_note_routes (t : EventTable) (notes : List Nat)
    (L R : Nat) :
    hitPairs notes (assign_hands_for_note t notes L R)
      = routeHits L R (hitPairs notes (sortByKey (fun p => p.1) t)) := by
  simp only [assign_hands_for_note]
  rw [hitTicks_eq_map_fst]
  have h := assignTable_routeK notes L R (sortByKey (fun p => p.1) t) []
  rw [List.append_nil] at h
  rw [h, routeK_nil_eq_routeHits]

/-- Counterexample to claim C2 as stated: with hits of note 38 at ticks 0
and 24 (left_track 5, right_track 6), the claim routes BOTH hits to "the
off-hand track" (tick 0 is a strong beat whose successor is 24 ticks later;
tick 24 is a weak beat), hence onto one single track — but the code sends
the tick-0 hit to track 6 and the tick-24 hit to track 5, so no single
off-hand track exists. -/
theorem assign_hands_no_single_offhand_track :
    tableEvents (assign_hands_for_note
        [(0, [sampleEv 0 5 38 100]), (24, [sampleEv 24 5 38 100])] [38] 5 6)
      = [{ tick := 0, track := 6, msg := noteOnMsg 38 100 },
         { tick := 24, track := 5, msg := noteOnMsg 38 100 }] ∧
    ¬ ∃ offT : Nat,
      ∀ e ∈ tableEvents (assign_hands_for_note
          [(0, [sampleEv 0 5 38 100]), (24, [sampleEv 24 5 38 100])] [38] 5 6),
        e.track = offT := by
  refine ⟨by decide, ?_⟩
  intro h
  obtain ⟨offT, hall⟩ := h
  have h0 := hall { tick := 0, track := 6, msg := noteOnMsg 38 100 } (by decide)
  have h1 := hall { tick := 24, track := 5, msg := noteOnMsg 38 100 } (by decide)
  have h0n : (6 : Nat) = offT := h0
  have h1n : (5 : Nat) = offT := h1
  omega
